import Mathlib

/-!
Verification of the MetalLedger price normalizer
(`services/pricing_ingestor/normalizer.py`) against its specification.

Embedding conventions:
* Python `float` and the values produced by `statistics.median` are embedded
  as exact fractions (`Frac`, an integer numerator with a natural-number
  denominator).  All arithmetic on them is exact rational arithmetic; binary
  floating-point rounding is not modelled.  Well-formed values have a positive
  denominator; theorems about the numeric meaning of a comparison carry that
  positivity as a hypothesis.
* Python `decimal.Decimal` (the type of `PricePoint.value`) is embedded as
  `Decimal`: an integer unscaled value together with a scale, denoting
  `unscaled / 10 ^ scale`, with `str` rendering matching the fixed-point
  rendering of `decimal.Decimal`.
* `datetime` values are opaque to the normalizer; they are embedded as `Int`.
* The `historical_lookup` dict is embedded as a total function
  `String → List Frac`; the code only reads it through
  `historical_lookup.get(metal, [])`, so a missing key is the same as an
  entry holding `[]`.
* Python `sorted` / the sort inside `statistics.median` are embedded with
  `List.insertionSort`, a stable ascending sort, matching Python semantics.
* `dict` iteration order in `normalize` (grouping by metal) is key insertion
  order, embedded as an association list built left to right.
-/

namespace MetalLedger

/-- Exact fraction `num / den`.  Embeds Python `float` values (their exact
rational value; well-formed values have `0 < den`). -/
structure Frac where
  num : Int
  den : Nat
deriving DecidableEq, Repr

/-- Strict order by cross multiplication; agrees with the rational order
whenever both denominators are positive. -/
def fracLt (a b : Frac) : Prop := a.num * (b.den : Int) < b.num * (a.den : Int)

instance : DecidableRel fracLt := fun a b => by unfold fracLt; infer_instance

/-- Non-strict order by cross multiplication. -/
def fracLe (a b : Frac) : Prop := a.num * (b.den : Int) ≤ b.num * (a.den : Int)

instance : DecidableRel fracLe := fun a b => by unfold fracLe; infer_instance

/-- Exact product of two fractions. -/
def Frac.mul (a b : Frac) : Frac := ⟨a.num * b.num, a.den * b.den⟩

/-- Exact sum of two fractions. -/
def Frac.add (a b : Frac) : Frac :=
  ⟨a.num * (b.den : Int) + b.num * (a.den : Int), a.den * b.den⟩

/-- Exact quotient of two fractions (sign moved into the numerator). -/
def Frac.div (a b : Frac) : Frac :=
  ⟨a.num * (b.den : Int) * (if b.num < 0 then -1 else 1), a.den * b.num.natAbs⟩

/-- Rational value denoted by a fraction. -/
def Frac.toRat (a : Frac) : ℚ := (a.num : ℚ) / (a.den : ℚ)

/-- Exact decimal number `unscaled / 10 ^ scale`; embeds `decimal.Decimal`
in its fixed-point (non-negative scale) form, as produced by the adapters. -/
structure Decimal where
  unscaled : Int
  scale : Nat
deriving DecidableEq, Repr

/-- The fraction denoted by a decimal; embeds `float(value)` (exactly). -/
def Decimal.toFrac (d : Decimal) : Frac := ⟨d.unscaled, 10 ^ d.scale⟩

/-- Rational value denoted by a decimal. -/
def Decimal.toRat (d : Decimal) : ℚ := (d.unscaled : ℚ) / (10 : ℚ) ^ d.scale

/-- Median of a list of values, as computed by Python `statistics.median`:
sort ascending, take the middle element (odd length) or the average of the
two middle elements (even length).  Junk value `0` on the empty list; the
code only calls it through `compute_rolling_median`, which guards emptiness. -/
def pyMedian (l : List Frac) : Frac :=
  let s := List.insertionSort fracLe l
  let n := l.length
  if n % 2 = 1 then s.getD (n / 2) ⟨0, 1⟩
  else ((s.getD (n / 2 - 1) ⟨0, 1⟩).add (s.getD (n / 2) ⟨0, 1⟩)).div ⟨2, 1⟩

/-- `compute_rolling_median`: the median of the history, or `None` if empty. -/
def compute_rolling_median (historical_values : List Frac) : Option Frac :=
  if historical_values = [] then none else some (pyMedian historical_values)

/-- `OUTLIER_MULTIPLIER` (default configuration value `3.0`). -/
def OUTLIER_MULTIPLIER : Frac := ⟨3, 1⟩

/-- `is_outlier`: true when the median exists, is nonzero, and
`float(value) > multiplier * median`. -/
def is_outlier (value : Decimal) (historical_values : List Frac) (multiplier : Frac) : Bool :=
  match compute_rolling_median historical_values with
  | none => false
  | some med =>
    if med.num = 0 then false
    else decide (fracLt (multiplier.mul med) value.toFrac)

/-! ### Data model and configuration -/

/-- A single price observation (`common.types.PricePoint`).  The timestamp is
opaque to the normalizer and embedded as an integer. -/
structure PricePoint where
  source : String
  metal : String
  venue : String
  price_ts : Int
  value : Decimal
  currency : String
  source_id : Option String
deriving DecidableEq, Repr

/-- `common.config.SOURCE_PRIORITY`: the global source-priority dict
(lower number = higher priority); `none` models a source absent from it. -/
def SOURCE_PRIORITY (s : String) : Option Nat :=
  if s = "dealer_manual" then some 1
  else if s = "iscrap" then some 2
  else if s = "scrap_register" then some 3
  else if s = "recycling_today" then some 4
  else if s = "seed" then some 99
  else none

/-- `common.config.METAL_SOURCE_PREFERENCE`: the per-metal ordered preference
lists; a metal absent from the dict maps to `[]`, matching the
`METAL_SOURCE_PREFERENCE.get(metal, [])` read in `select_best_price`. -/
def METAL_SOURCE_PREFERENCE (metal : String) : List String :=
  if metal = "HMS1" then ["dealer_manual", "iscrap", "recycling_today"]
  else if metal = "HMS2" then ["dealer_manual", "iscrap", "recycling_today"]
  else if metal = "SHRED" then ["dealer_manual", "iscrap", "recycling_today"]
  else if metal = "CAST" then ["dealer_manual", "iscrap", "recycling_today"]
  else if metal = "CU_BARE" then ["dealer_manual", "iscrap", "scrap_register"]
  else if metal = "CU_1" then ["dealer_manual", "iscrap", "scrap_register"]
  else if metal = "CU_2" then ["dealer_manual", "iscrap", "scrap_register"]
  else if metal = "AL_CAST" then ["dealer_manual", "iscrap", "scrap_register"]
  else if metal = "AL_EXTRUSION" then ["dealer_manual", "iscrap", "scrap_register"]
  else if metal = "BRASS" then ["dealer_manual", "iscrap", "scrap_register"]
  else if metal = "SS_304" then ["dealer_manual", "iscrap", "scrap_register"]
  else if metal = "LEAD" then ["dealer_manual", "iscrap", "scrap_register"]
  else if metal = "ZORBA" then ["dealer_manual", "iscrap", "recycling_today"]
  else []

/-- The sort key of `sort_by_priority`: `SOURCE_PRIORITY.get(p.source, 999)`. -/
def sourceRank (s : String) : Nat := (SOURCE_PRIORITY s).getD 999

/-- Candidate order used by `sort_by_priority` (ascending sort key). -/
def priceLe (p q : PricePoint) : Prop := sourceRank p.source ≤ sourceRank q.source

instance : DecidableRel priceLe := fun p q => by unfold priceLe; infer_instance

instance : IsTotal PricePoint priceLe :=
  ⟨fun p q => Nat.le_total (sourceRank p.source) (sourceRank q.source)⟩

instance : IsTrans PricePoint priceLe :=
  ⟨fun _ _ _ hab hbc => Nat.le_trans hab hbc⟩

/-- `sort_by_priority`: stable ascending sort by global source priority. -/
def sort_by_priority (prices : List PricePoint) : List PricePoint :=
  List.insertionSort priceLe prices

/-- The preference walk inside `select_best_price`: for each preferred source
in order, return the first candidate from that source, if any. -/
def walkPref (preference : List String) (prices : List PricePoint) : Option PricePoint :=
  match preference with
  | [] => none
  | s :: rest =>
    match prices.find? (fun p => p.source == s) with
    | some p => some p
    | none => walkPref rest prices

/-- `select_best_price`: `None` on an empty candidate list; otherwise the
preference walk for the metal, falling back to the head of the global
priority sort. -/
def select_best_price (prices : List PricePoint) (metal : String) : Option PricePoint :=
  match prices with
  | [] => none
  | _ :: _ =>
    match walkPref (METAL_SOURCE_PREFERENCE metal) prices with
    | some p => some p
    | none => (sort_by_priority prices).head?

/-! ### String rendering used by the rejection reason -/

/-- Rendering of a `Decimal`, as Python `str(decimal.Decimal)` (the
to-scientific-string rule): with coefficient digits `ds` and exponent
`-scale`, the adjusted exponent is `ds.length - 1 - scale`; when it drops
below `-6` the value renders in scientific notation (first digit, optional
fraction, `E` and the adjusted exponent), otherwise in fixed-point form with
the decimal point placed per the scale and leading zeros as needed; minus
sign first. -/
def Decimal.str (d : Decimal) : String :=
  let ds := Nat.repr d.unscaled.natAbs
  let adj : Int := (ds.length : Int) - 1 - (d.scale : Int)
  let body :=
    if adj < -6 then
      String.mk (ds.toList.take 1) ++
        (if ds.length ≤ 1 then "" else "." ++ String.mk (ds.toList.drop 1)) ++
        "E" ++ (if adj < 0 then toString adj else "+" ++ toString adj)
    else if d.scale = 0 then ds
    else if (d.scale : Int) < (ds.length : Int) then
      String.mk (ds.toList.take (ds.length - d.scale)) ++ "." ++
        String.mk (ds.toList.drop (ds.length - d.scale))
    else
      "0." ++ String.mk (List.replicate (d.scale - ds.length) '0') ++ ds
  if d.unscaled < 0 then "-" ++ body else body

/-- Round to the nearest integer, ties to even (the rounding used by Python
float formatting).  Meaningful for positive denominators. -/
def roundHalfEven (q : Frac) : Int :=
  let f := q.num.fdiv (q.den : Int)
  let r2 := 2 * (q.num - f * (q.den : Int))
  if r2 < (q.den : Int) then f
  else if (q.den : Int) < r2 then f + 1
  else if f % 2 = 0 then f else f + 1

/-- Python fixed-width float formatting `format(x, ".kf")`: round half-even
to `k` fractional digits and render with exactly `k` digits after the point. -/
def ratFixed (k : Nat) (q : Frac) : String :=
  let n := roundHalfEven (q.mul ⟨(10 : Int) ^ k, 1⟩)
  let a := n.natAbs
  let ip := a / 10 ^ k
  let fp := a % 10 ^ k
  let fs := Nat.repr fp
  let fs := String.mk (List.replicate (k - fs.length) '0') ++ fs
  let body := if k = 0 then Nat.repr ip else Nat.repr ip ++ "." ++ fs
  if n < 0 then "-" ++ body else body

/-- Python `str(float)`: integers render with a trailing `.0`, other values
with their shortest exact decimal expansion (floats always have one; the
final branch is unreachable for genuine float values). -/
def floatStr (q : Frac) : String :=
  if q.den ≠ 0 ∧ q.num % (q.den : Int) = 0 then
    let i := q.num.fdiv (q.den : Int)
    (if i < 0 then "-" ++ Nat.repr i.natAbs else Nat.repr i.natAbs) ++ ".0"
  else
    match (List.range 400).find?
        (fun k => decide ((q.num * (10 : Int) ^ (k + 1)) % (q.den : Int) = 0)) with
    | some k => ratFixed (k + 1) q
    | none =>
      (if q.num < 0 then "-" else "") ++ Nat.repr q.num.natAbs ++ "/" ++ Nat.repr q.den

/-- The rejection reason built in `normalize`:
`f"outlier: value=.. > ..×median=.."` with the value via `str(Decimal)`,
the multiplier via `str(float)` and the median via `.4f` formatting.
`normalize` only builds it when the history is non-empty (so the median the
Python code formats is never `None`). -/
def mkReason (value : Decimal) (multiplier : Frac) (history : List Frac) : String :=
  "outlier: value=" ++ value.str ++ " > " ++ floatStr multiplier ++ "×median=" ++
    ratFixed 4 (pyMedian history)

/-! ### The batch normalizer -/

/-- Outcome container (`NormalizationResult`): accepted observations and
rejected (observation, reason) pairs, each in insertion order. -/
structure NormalizationResult where
  accepted : List PricePoint
  rejected : List (PricePoint × String)
deriving DecidableEq, Repr

/-- The inner loop of `normalize` over one metal group: classify each
candidate against the group history, accepting or rejecting in order. -/
def processCandidates (history : List Frac) (multiplier : Frac) :
    List PricePoint → NormalizationResult
  | [] => ⟨[], []⟩
  | p :: rest =>
    let r := processCandidates history multiplier rest
    if is_outlier p.value history multiplier then
      ⟨r.accepted, (p, mkReason p.value multiplier history) :: r.rejected⟩
    else
      ⟨p :: r.accepted, r.rejected⟩

/-- One step of `by_metal.setdefault(p.metal, []).append(p)`: append the
observation to its metal bucket, creating the bucket at the end on first use. -/
def addToGroups : List (String × List PricePoint) → PricePoint → List (String × List PricePoint)
  | [], p => [(p.metal, [p])]
  | (k, ps) :: rest, p =>
    if k = p.metal then (k, ps ++ [p]) :: rest
    else (k, ps) :: addToGroups rest p

/-- The grouping loop of `normalize`: buckets keyed by metal, keys in first
occurrence order (Python dict insertion order), bucket contents in input
order. -/
def groupByMetal (incoming : List PricePoint) : List (String × List PricePoint) :=
  incoming.foldl addToGroups []

/-- The outer loop of `normalize` over the metal groups, concatenating each
group's accepted and rejected lists in group order. -/
def processGroups (historical_lookup : String → List Frac) (multiplier : Frac) :
    List (String × List PricePoint) → NormalizationResult
  | [] => ⟨[], []⟩
  | (metal, candidates) :: rest =>
    let r1 := processCandidates (historical_lookup metal) multiplier candidates
    let r2 := processGroups historical_lookup multiplier rest
    ⟨r1.accepted ++ r2.accepted, r1.rejected ++ r2.rejected⟩

/-- `normalize`: group the batch by metal, then classify every observation
of each group against that metal's history. -/
def normalize (incoming : List PricePoint)
    (historical_lookup : String → List Frac) (multiplier : Frac) : NormalizationResult :=
  processGroups historical_lookup multiplier (groupByMetal incoming)

/-! ### Auxiliary notions used to state and prove the batch properties -/

/-- The bucket stored for a metal in the grouping association list
(first entry with that key; `[]` when absent). -/
def bucket : List (String × List PricePoint) → String → List PricePoint
  | [], _ => []
  | (k, ps) :: rest, metal => if k = metal then ps else bucket rest metal

/-- Total number of observations held across all buckets. -/
def totalLen (gs : List (String × List PricePoint)) : Nat :=
  (gs.map fun g => g.2.length).sum

/-- Every observation sits in the bucket of its own metal. -/
def MembersWF (gs : List (String × List PricePoint)) : Prop :=
  ∀ g ∈ gs, ∀ p ∈ g.2, p.metal = g.1

/-- Bucket keys are pairwise distinct. -/
def KeysNodup (gs : List (String × List PricePoint)) : Prop :=
  (gs.map Prod.fst).Nodup

/-- Number of characters after the first decimal point of a rendered numeral
(0 when no point occurs): how many decimal digits a numeral shows. -/
def fracDigits (s : List Char) : Nat :=
  match s.dropWhile (fun c => c != '.') with
  | [] => 0
  | _ :: t => t.length

/-- The substring of a rejection reason that renders the observed value:
the characters after `value=` up to the following space. -/
def valueField (r : String) : List Char :=
  (r.toList.drop ("outlier: value=".toList.length)).takeWhile (fun c => c != ' ')

/-! ### Theorems -/

/-! ### Bridging lemmas: `Frac` operations versus their rational meaning -/

theorem Frac.toRat_mul (a b : Frac) : (a.mul b).toRat = a.toRat * b.toRat := by
  unfold Frac.mul Frac.toRat
  push_cast
  rw [div_mul_div_comm]

theorem fracLt_iff_toRat (a b : Frac) (ha : 0 < a.den) (hb : 0 < b.den) :
    fracLt a b ↔ a.toRat < b.toRat := by
  unfold fracLt Frac.toRat
  rw [div_lt_div_iff₀ (by exact_mod_cast ha) (by exact_mod_cast hb)]
  exact ⟨fun h => by exact_mod_cast h, fun h => by exact_mod_cast h⟩

theorem Frac.toRat_eq_zero_iff (a : Frac) (ha : 0 < a.den) : a.toRat = 0 ↔ a.num = 0 := by
  unfold Frac.toRat
  rw [div_eq_zero_iff]
  constructor
  · rintro (h | h)
    · exact_mod_cast h
    · exact absurd h (by positivity)
  · intro h
    exact Or.inl (by exact_mod_cast h)

theorem fracGetD_den_pos (s : List Frac) (i : Nat) (hs : ∀ x ∈ s, 0 < x.den) :
    0 < (s.getD i ⟨0, 1⟩).den := by
  by_cases h : i < s.length
  · rw [List.getD_eq_getElem s _ h]
    exact hs _ (s.getElem_mem h)
  · rw [List.getD_eq_default s _ (le_of_not_lt h)]
    exact Nat.one_pos

theorem pyMedian_den_pos (l : List Frac) (hl : ∀ x ∈ l, 0 < x.den) :
    0 < (pyMedian l).den := by
  have hs : ∀ x ∈ List.insertionSort fracLe l, 0 < x.den := by
    intro x hx
    exact hl x ((List.perm_insertionSort fracLe l).mem_iff.mp hx)
  unfold pyMedian
  by_cases h : l.length % 2 = 1
  · simp only [h, if_pos]
    exact fracGetD_den_pos _ _ hs
  · simp only [h, if_neg, if_false]
    unfold Frac.div Frac.add
    have h1 := fracGetD_den_pos (List.insertionSort fracLe l) (l.length / 2 - 1) hs
    have h2 := fracGetD_den_pos (List.insertionSort fracLe l) (l.length / 2) hs
    simpa using Nat.mul_pos (Nat.mul_pos h1 h2) Nat.two_pos

theorem Decimal.toFrac_toRat (d : Decimal) : d.toFrac.toRat = d.toRat := by
  unfold Decimal.toFrac Decimal.toRat Frac.toRat
  push_cast
  ring

theorem Decimal.toFrac_den_pos (d : Decimal) : 0 < d.toFrac.den := by
  unfold Decimal.toFrac
  exact Nat.pos_pow_of_pos d.scale (by decide)

/-- C1: `is_outlier(v, h, m)` is true exactly when the history is non-empty,
its median is nonzero, and the value strictly exceeds `m` times the median;
at the threshold, with empty history, or with a zero median it is false. -/
theorem C1_is_outlier_iff (v : Decimal) (h : List Frac) (m : Frac)
    (hh : ∀ x ∈ h, 0 < x.den) (hm : 0 < m.den) :
    is_outlier v h m = true ↔
      h ≠ [] ∧ (pyMedian h).toRat ≠ 0 ∧ m.toRat * (pyMedian h).toRat < v.toRat := by
  have hmed : 0 < (pyMedian h).den := pyMedian_den_pos h hh
  unfold is_outlier compute_rolling_median
  by_cases hnil : h = []
  · simp [hnil]
  · simp only [hnil, if_neg, if_false]
    by_cases hz : (pyMedian h).num = 0
    · have : (pyMedian h).toRat = 0 := ((pyMedian h).toRat_eq_zero_iff hmed).mpr hz
      simp [hz, this]
    · have hne : (pyMedian h).toRat ≠ 0 := fun hc =>
        hz (((pyMedian h).toRat_eq_zero_iff hmed).mp hc)
      have hmm : 0 < (m.mul (pyMedian h)).den := by
        unfold Frac.mul
        exact Nat.mul_pos hm hmed
      simp only [hz, if_neg, if_false, decide_eq_true_eq]
      rw [fracLt_iff_toRat _ _ hmm v.toFrac_den_pos, Frac.toRat_mul, Decimal.toFrac_toRat]
      constructor
      · intro hlt
        exact ⟨hnil, hne, hlt⟩
      · intro ⟨_, _, hlt⟩
        exact hlt

/-- C1 witness: concrete evaluation of the characterization at
history `[1, 1, 1]` (median `1`), multiplier `3`, value `15`. -/
theorem C1_is_outlier_iff_witness :
    (∀ x ∈ ([⟨1, 1⟩, ⟨1, 1⟩, ⟨1, 1⟩] : List Frac), 0 < x.den) ∧
      (is_outlier ⟨15, 0⟩ [⟨1, 1⟩, ⟨1, 1⟩, ⟨1, 1⟩] ⟨3, 1⟩ = true ↔
        ([⟨1, 1⟩, ⟨1, 1⟩, ⟨1, 1⟩] : List Frac) ≠ [] ∧
          (pyMedian [⟨1, 1⟩, ⟨1, 1⟩, ⟨1, 1⟩]).toRat ≠ 0 ∧
          (⟨3, 1⟩ : Frac).toRat * (pyMedian [⟨1, 1⟩, ⟨1, 1⟩, ⟨1, 1⟩]).toRat <
            (⟨15, 0⟩ : Decimal).toRat) :=
  ⟨by decide, C1_is_outlier_iff ⟨15, 0⟩ [⟨1, 1⟩, ⟨1, 1⟩, ⟨1, 1⟩] ⟨3, 1⟩ (by decide) (by decide)⟩


/-- C10: on an empty candidate list, `select_best_price` returns `None`. -/
theorem C10_select_best_price_empty (metal : String) :
    select_best_price [] metal = none := rfl

/-- If a preferred source is matched by some candidate, the preference walk
returns the first candidate of the earliest matched preferred source. -/
theorem walkPref_spec (preference : List String) (prices : List PricePoint)
    (h : ∃ p ∈ prices, p.source ∈ preference) :
    ∃ pre s post q, preference = pre ++ s :: post ∧
      (∀ t ∈ pre, prices.find? (fun p => p.source == t) = none) ∧
      prices.find? (fun p => p.source == s) = some q ∧
      q.source = s ∧
      walkPref preference prices = some q := by
  induction preference with
  | nil =>
    obtain ⟨p, _, hp⟩ := h
    exact absurd hp (List.not_mem_nil _)
  | cons s rest ih =>
    by_cases hfind : ∃ q, prices.find? (fun p => p.source == s) = some q
    · obtain ⟨q, hq⟩ := hfind
      refine ⟨[], s, rest, q, rfl, by simp, hq, ?_, ?_⟩
      · have := List.find?_some hq
        simpa using this
      · unfold walkPref
        rw [hq]
    · have hnone : prices.find? (fun p => p.source == s) = none := by
        cases hf : prices.find? (fun p => p.source == s) with
        | none => rfl
        | some q => exact absurd ⟨q, hf⟩ hfind
      have hrest : ∃ p ∈ prices, p.source ∈ rest := by
        obtain ⟨p, hpmem, hpsrc⟩ := h
        rcases List.mem_cons.mp hpsrc with heq | hmem
        · exfalso
          have : prices.find? (fun p => p.source == s) ≠ none := by
            intro hc
            have := List.find?_eq_none.mp hc p hpmem
            simp [heq] at this
          exact this hnone
        · exact ⟨p, hpmem, hmem⟩
      obtain ⟨pre, s', post, q, hpref, hpre, hfound, hsrc, hwalk⟩ := ih hrest
      refine ⟨s :: pre, s', post, q, by rw [hpref]; rfl, ?_, hfound, hsrc, ?_⟩
      · intro t ht
        rcases List.mem_cons.mp ht with rfl | htpre
        · exact hnone
        · exact hpre t htpre
      · unfold walkPref
        rw [hnone, hwalk]

/-- C5: when a metal has a preference list and some candidate's source appears
in it, `select_best_price` returns the first matching candidate of the
earliest matching preferred source — the candidate returned comes from the
preference list, overriding the global ranking. -/
theorem C5_preference_override (prices : List PricePoint) (metal : String)
    (h : ∃ p ∈ prices, p.source ∈ METAL_SOURCE_PREFERENCE metal) :
    ∃ pre s post q, METAL_SOURCE_PREFERENCE metal = pre ++ s :: post ∧
      (∀ t ∈ pre, prices.find? (fun p => p.source == t) = none) ∧
      prices.find? (fun p => p.source == s) = some q ∧
      q.source = s ∧
      select_best_price prices metal = some q := by
  obtain ⟨pre, s, post, q, hpref, hpre, hfound, hsrc, hwalk⟩ := walkPref_spec _ prices h
  refine ⟨pre, s, post, q, hpref, hpre, hfound, hsrc, ?_⟩
  obtain ⟨p, hpmem, _⟩ := h
  cases prices with
  | nil => exact absurd hpmem (List.not_mem_nil _)
  | cons a rest =>
    unfold select_best_price
    rw [hwalk]

/-- C5 witness: metal `CU_BARE` has preference list
`[dealer_manual, iscrap, scrap_register]`; with candidates from
`iscrap` and `seed` only, the `iscrap` candidate is selected. -/
theorem C5_preference_override_witness :
    (∃ p ∈ [⟨"iscrap", "CU_BARE", "", 0, ⟨390, 2⟩, "USD", none⟩,
            ⟨"seed", "CU_BARE", "", 0, ⟨395, 2⟩, "USD", none⟩],
        PricePoint.source p ∈ METAL_SOURCE_PREFERENCE "CU_BARE") ∧
      ∃ pre s post q,
        METAL_SOURCE_PREFERENCE "CU_BARE" = pre ++ s :: post ∧
        (∀ t ∈ pre,
          List.find? (fun p => PricePoint.source p == t)
            [⟨"iscrap", "CU_BARE", "", 0, ⟨390, 2⟩, "USD", none⟩,
             ⟨"seed", "CU_BARE", "", 0, ⟨395, 2⟩, "USD", none⟩] = none) ∧
        List.find? (fun p => PricePoint.source p == s)
          [⟨"iscrap", "CU_BARE", "", 0, ⟨390, 2⟩, "USD", none⟩,
           ⟨"seed", "CU_BARE", "", 0, ⟨395, 2⟩, "USD", none⟩] = some q ∧
        q.source = s ∧
        select_best_price
          [⟨"iscrap", "CU_BARE", "", 0, ⟨390, 2⟩, "USD", none⟩,
           ⟨"seed", "CU_BARE", "", 0, ⟨395, 2⟩, "USD", none⟩] "CU_BARE" = some q :=
  ⟨⟨⟨"iscrap", "CU_BARE", "", 0, ⟨390, 2⟩, "USD", none⟩, by decide⟩,
    C5_preference_override _ "CU_BARE"
      ⟨⟨"iscrap", "CU_BARE", "", 0, ⟨390, 2⟩, "USD", none⟩, by decide⟩⟩

/-- If no candidate's source is preferred, the preference walk finds nothing. -/
theorem walkPref_eq_none (preference : List String) (prices : List PricePoint)
    (h : ∀ p ∈ prices, p.source ∉ preference) :
    walkPref preference prices = none := by
  induction preference with
  | nil => rfl
  | cons s rest ih =>
    unfold walkPref
    have hnone : prices.find? (fun p => p.source == s) = none := by
      rw [List.find?_eq_none]
      intro p hpmem
      intro hc
      have : p.source = s := by simpa using hc
      exact h p hpmem (this ▸ List.mem_cons_self s rest)
    rw [hnone]
    exact ih fun p hp hmem => h p hp (List.mem_cons_of_mem s hmem)

/-- C6: with no preference match, `select_best_price` falls back to the global
priority sort and returns a candidate of minimal rank; sources absent from
`SOURCE_PRIORITY` are ranked `999` (below every known source) instead of
failing. -/
theorem C6_global_fallback (prices : List PricePoint) (metal : String)
    (hne : prices ≠ [])
    (h : ∀ p ∈ prices, p.source ∉ METAL_SOURCE_PREFERENCE metal) :
    (∃ q, select_best_price prices metal = some q ∧ q ∈ prices ∧
        ∀ p ∈ prices, sourceRank q.source ≤ sourceRank p.source) ∧
      (∀ s, SOURCE_PRIORITY s = none → sourceRank s = 999) ∧
      (∀ s r, SOURCE_PRIORITY s = some r → r < 999) := by
  refine ⟨?_, fun s hs => by unfold sourceRank; rw [hs]; rfl, ?_⟩
  · have hperm : (sort_by_priority prices).Perm prices := List.perm_insertionSort priceLe prices
    have hsorted : List.Sorted priceLe (sort_by_priority prices) :=
      List.sorted_insertionSort priceLe prices
    have hsel : select_best_price prices metal = (sort_by_priority prices).head? := by
      cases prices with
      | nil => exact absurd rfl hne
      | cons a rest =>
        have hwalk := walkPref_eq_none (METAL_SOURCE_PREFERENCE metal) (a :: rest) h
        unfold select_best_price
        rw [hwalk]
    obtain ⟨q, srest, hs⟩ : ∃ q srest, sort_by_priority prices = q :: srest := by
      cases hsq : sort_by_priority prices with
      | nil =>
        exfalso
        have := hperm.length_eq
        rw [hsq] at this
        cases prices with
        | nil => exact hne rfl
        | cons a rest => simp at this
      | cons q srest => exact ⟨q, srest, rfl⟩
    rw [hs] at hperm hsorted
    refine ⟨q, ?_, ?_, ?_⟩
    · rw [hsel, hs]
      rfl
    · exact hperm.subset (List.mem_cons_self q srest)
    · intro p hpmem
      rcases List.mem_cons.mp (hperm.mem_iff.mpr hpmem) with rfl | hmem
      · exact Nat.le_refl _
      · exact (List.sorted_cons.mp hsorted).1 p hmem
  · intro s r hr
    unfold SOURCE_PRIORITY at hr
    by_cases h1 : s = "dealer_manual"
    · simp [h1] at hr; omega
    · by_cases h2 : s = "iscrap"
      · simp [h1, h2] at hr; omega
      · by_cases h3 : s = "scrap_register"
        · simp [h1, h2, h3] at hr; omega
        · by_cases h4 : s = "recycling_today"
          · simp [h1, h2, h3, h4] at hr; omega
          · by_cases h5 : s = "seed"
            · simp [h1, h2, h3, h4, h5] at hr; omega
            · simp [h1, h2, h3, h4, h5] at hr

/-- C6 witness: candidates from `seed` (rank 99) and an unknown source
(rank 999) for a metal with no preference match: the `seed` candidate has
minimal rank and is selected. -/
theorem C6_global_fallback_witness :
    (([⟨"unknown_feed", "XX_METAL", "", 0, ⟨10, 0⟩, "USD", none⟩,
       ⟨"seed", "XX_METAL", "", 0, ⟨11, 0⟩, "USD", none⟩] : List PricePoint) ≠ []) ∧
      ((∃ q, select_best_price
            [⟨"unknown_feed", "XX_METAL", "", 0, ⟨10, 0⟩, "USD", none⟩,
             ⟨"seed", "XX_METAL", "", 0, ⟨11, 0⟩, "USD", none⟩] "XX_METAL" = some q ∧
          q ∈ [⟨"unknown_feed", "XX_METAL", "", 0, ⟨10, 0⟩, "USD", none⟩,
               ⟨"seed", "XX_METAL", "", 0, ⟨11, 0⟩, "USD", none⟩] ∧
          ∀ p ∈ [⟨"unknown_feed", "XX_METAL", "", 0, ⟨10, 0⟩, "USD", none⟩,
                 ⟨"seed", "XX_METAL", "", 0, ⟨11, 0⟩, "USD", none⟩],
            sourceRank q.source ≤ sourceRank (PricePoint.source p)) ∧
        (∀ s, SOURCE_PRIORITY s = none → sourceRank s = 999) ∧
        (∀ s r, SOURCE_PRIORITY s = some r → r < 999)) :=
  ⟨by decide,
    C6_global_fallback
      [⟨"unknown_feed", "XX_METAL", "", 0, ⟨10, 0⟩, "USD", none⟩,
       ⟨"seed", "XX_METAL", "", 0, ⟨11, 0⟩, "USD", none⟩] "XX_METAL"
      (by decide) (by decide)⟩


theorem processCandidates_accepted (history : List Frac) (m : Frac) (cs : List PricePoint) :
    (processCandidates history m cs).accepted =
      cs.filter fun p => ! is_outlier p.value history m := by
  induction cs with
  | nil => rfl
  | cons p rest ih =>
    cases hp : is_outlier p.value history m <;>
      simp [processCandidates, hp, ih, List.filter_cons]

theorem processCandidates_rejected (history : List Frac) (m : Frac) (cs : List PricePoint) :
    (processCandidates history m cs).rejected =
      (cs.filter fun p => is_outlier p.value history m).map
        fun p => (p, mkReason p.value m history) := by
  induction cs with
  | nil => rfl
  | cons p rest ih =>
    cases hp : is_outlier p.value history m <;>
      simp [processCandidates, hp, ih, List.filter_cons]

theorem processCandidates_length (history : List Frac) (m : Frac) (cs : List PricePoint) :
    (processCandidates history m cs).accepted.length +
      (processCandidates history m cs).rejected.length = cs.length := by
  induction cs with
  | nil => rfl
  | cons p rest ih =>
    cases hp : is_outlier p.value history m <;>
      simp [processCandidates, hp] <;> omega

theorem bucket_addToGroups (gs : List (String × List PricePoint)) (p : PricePoint)
    (k : String) :
    bucket (addToGroups gs p) k =
      bucket gs k ++ if p.metal = k then [p] else [] := by
  induction gs with
  | nil =>
    by_cases h : p.metal = k
    · simp [addToGroups, bucket, h]
    · simp [addToGroups, bucket, h]
  | cons g0 rest ih =>
    obtain ⟨k', ps⟩ := g0
    by_cases h1 : k' = p.metal
    · by_cases h2 : k' = k
      · have hpk : p.metal = k := h1.symm.trans h2
        simp [addToGroups, bucket, h1, h2, hpk]
      · have hpk : ¬p.metal = k := fun hc => h2 (h1.trans hc)
        simp [addToGroups, bucket, h1, h2, hpk]
    · by_cases h2 : k' = k
      · subst h2
        have hpk : ¬p.metal = k' := fun hc => h1 hc.symm
        simp [addToGroups, bucket, h1, hpk]
      · simp [addToGroups, bucket, h1, h2, ih]

theorem bucket_foldl (l : List PricePoint) (gs : List (String × List PricePoint))
    (k : String) :
    bucket (l.foldl addToGroups gs) k =
      bucket gs k ++ l.filter fun p => decide (p.metal = k) := by
  induction l generalizing gs with
  | nil => simp
  | cons p rest ih =>
    rw [List.foldl_cons, ih, bucket_addToGroups]
    by_cases h : p.metal = k
    · simp [List.filter_cons, h]
    · simp [List.filter_cons, h]

theorem bucket_groupByMetal (l : List PricePoint) (k : String) :
    bucket (groupByMetal l) k = l.filter fun p => decide (p.metal = k) := by
  unfold groupByMetal
  rw [bucket_foldl]
  rfl

theorem membersWF_addToGroups : ∀ (gs : List (String × List PricePoint)) (p : PricePoint),
    MembersWF gs → MembersWF (addToGroups gs p) := by
  intro gs p
  induction gs with
  | nil =>
    intro _ g hg q hq
    simp only [addToGroups, List.mem_singleton] at hg
    subst hg
    simp only [List.mem_singleton] at hq
    subst hq
    rfl
  | cons g0 rest ih =>
    obtain ⟨k', ps⟩ := g0
    intro h g hg q hq
    by_cases h1 : k' = p.metal
    · simp only [addToGroups, if_pos h1] at hg
      rcases List.mem_cons.mp hg with rfl | hgrest
      · rcases List.mem_append.mp hq with hq1 | hq2
        · exact h (k', ps) (List.mem_cons_self _ _) q hq1
        · simp only [List.mem_singleton] at hq2
          subst hq2
          exact h1.symm
      · exact h g (List.mem_cons_of_mem _ hgrest) q hq
    · simp only [addToGroups, if_neg h1] at hg
      rcases List.mem_cons.mp hg with rfl | hgrest
      · exact h (k', ps) (List.mem_cons_self _ _) q hq
      · exact ih (fun g' hg' => h g' (List.mem_cons_of_mem _ hg')) g hgrest q hq

theorem mem_keys_addToGroups : ∀ (gs : List (String × List PricePoint)) (p : PricePoint)
    (k : String), k ∈ (addToGroups gs p).map Prod.fst →
    k ∈ gs.map Prod.fst ∨ k = p.metal := by
  intro gs p
  induction gs with
  | nil =>
    intro k hk
    simp only [addToGroups, List.map_cons, List.map_nil, List.mem_singleton] at hk
    exact Or.inr hk
  | cons g0 rest ih =>
    obtain ⟨k', ps⟩ := g0
    intro k hk
    by_cases h1 : k' = p.metal
    · simp only [addToGroups, if_pos h1, List.map_cons] at hk
      exact Or.inl (by simpa using hk)
    · simp only [addToGroups, if_neg h1, List.map_cons] at hk
      rcases List.mem_cons.mp hk with rfl | hk2
      · exact Or.inl (List.mem_cons_self _ _)
      · rcases ih k hk2 with hin | heq
        · exact Or.inl (List.mem_cons_of_mem _ hin)
        · exact Or.inr heq

theorem keysNodup_addToGroups : ∀ (gs : List (String × List PricePoint)) (p : PricePoint),
    KeysNodup gs → KeysNodup (addToGroups gs p) := by
  intro gs p
  induction gs with
  | nil =>
    intro _
    unfold KeysNodup addToGroups
    simp
  | cons g0 rest ih =>
    obtain ⟨k', ps⟩ := g0
    intro h
    unfold KeysNodup at h ⊢
    by_cases h1 : k' = p.metal
    · simpa [addToGroups, h1] using h
    · simp only [addToGroups, if_neg h1, List.map_cons] at h ⊢
      rw [List.nodup_cons] at h ⊢
      refine ⟨fun hc => ?_, ih h.2⟩
      rcases mem_keys_addToGroups rest p k' hc with hin | heq
      · exact h.1 hin
      · exact h1 heq

theorem membersWF_groupByMetal (l : List PricePoint) : MembersWF (groupByMetal l) := by
  unfold groupByMetal
  have h : ∀ (rest : List PricePoint) (gs : List (String × List PricePoint)),
      MembersWF gs → MembersWF (rest.foldl addToGroups gs) := by
    intro rest
    induction rest with
    | nil => exact fun gs h => h
    | cons p ps ih => exact fun gs h => ih _ (membersWF_addToGroups gs p h)
  exact h l [] fun g hg => absurd hg (List.not_mem_nil _)

theorem keysNodup_groupByMetal (l : List PricePoint) : KeysNodup (groupByMetal l) := by
  unfold groupByMetal
  have h : ∀ (rest : List PricePoint) (gs : List (String × List PricePoint)),
      KeysNodup gs → KeysNodup (rest.foldl addToGroups gs) := by
    intro rest
    induction rest with
    | nil => exact fun gs h => h
    | cons p ps ih => exact fun gs h => ih _ (keysNodup_addToGroups gs p h)
  exact h l [] List.nodup_nil

theorem bucket_eq_nil : ∀ (gs : List (String × List PricePoint)) (k : String),
    k ∉ gs.map Prod.fst → bucket gs k = [] := by
  intro gs k
  induction gs with
  | nil => intro _; rfl
  | cons g0 rest ih =>
    obtain ⟨k', ps⟩ := g0
    intro h
    have h1 : k' ≠ k := fun hc => h (by simp [hc])
    simp only [bucket, if_neg h1]
    exact ih fun hc => h (List.mem_cons_of_mem _ hc)

theorem processGroups_accepted_filter :
    ∀ (gs : List (String × List PricePoint)) (lk : String → List Frac) (m : Frac)
      (M : String), MembersWF gs → KeysNodup gs →
    (processGroups lk m gs).accepted.filter (fun p => decide (p.metal = M)) =
      (bucket gs M).filter fun p => ! is_outlier p.value (lk M) m := by
  intro gs lk m M
  induction gs with
  | nil => intro _ _; rfl
  | cons g0 rest ih =>
    obtain ⟨k, cs⟩ := g0
    intro hwf hnd
    have hcs : ∀ p ∈ cs, p.metal = k := fun p hp =>
      hwf (k, cs) (List.mem_cons_self _ _) p hp
    have hwfrest : MembersWF rest := fun g hg => hwf g (List.mem_cons_of_mem _ hg)
    have hndpair := List.nodup_cons.mp hnd
    simp only [processGroups, List.filter_append]
    rw [processCandidates_accepted, ih hwfrest hndpair.2]
    by_cases hkM : k = M
    · subst hkM
      rw [bucket_eq_nil rest k hndpair.1]
      have h1 : (cs.filter fun p => ! is_outlier p.value (lk k) m).filter
          (fun p => decide (p.metal = k)) =
          cs.filter fun p => ! is_outlier p.value (lk k) m := by
        rw [List.filter_eq_self]
        intro p hp
        simp [hcs p (List.mem_of_mem_filter hp)]
      simp [bucket, h1]
    · have h1 : (cs.filter fun p => ! is_outlier p.value (lk k) m).filter
          (fun p => decide (p.metal = M)) = [] := by
        rw [List.filter_eq_nil_iff]
        intro p hp
        simp [hcs p (List.mem_of_mem_filter hp), hkM]
      simp [bucket, hkM, h1]

theorem processGroups_rejected_filter :
    ∀ (gs : List (String × List PricePoint)) (lk : String → List Frac) (m : Frac)
      (M : String), MembersWF gs → KeysNodup gs →
    (processGroups lk m gs).rejected.filter (fun pr => decide (pr.1.metal = M)) =
      ((bucket gs M).filter fun p => is_outlier p.value (lk M) m).map
        fun p => (p, mkReason p.value m (lk M)) := by
  intro gs lk m M
  induction gs with
  | nil => intro _ _; rfl
  | cons g0 rest ih =>
    obtain ⟨k, cs⟩ := g0
    intro hwf hnd
    have hcs : ∀ p ∈ cs, p.metal = k := fun p hp =>
      hwf (k, cs) (List.mem_cons_self _ _) p hp
    have hwfrest : MembersWF rest := fun g hg => hwf g (List.mem_cons_of_mem _ hg)
    have hndpair := List.nodup_cons.mp hnd
    simp only [processGroups, List.filter_append]
    rw [processCandidates_rejected, ih hwfrest hndpair.2]
    by_cases hkM : k = M
    · subst hkM
      rw [bucket_eq_nil rest k hndpair.1]
      have h1 : ((cs.filter fun p => is_outlier p.value (lk k) m).map
            fun p => (p, mkReason p.value m (lk k))).filter
          (fun pr => decide (pr.1.metal = k)) =
          (cs.filter fun p => is_outlier p.value (lk k) m).map
            fun p => (p, mkReason p.value m (lk k)) := by
        rw [List.filter_eq_self]
        intro pr hpr
        obtain ⟨q, hq, rfl⟩ := List.mem_map.mp hpr
        simp [hcs q (List.mem_of_mem_filter hq)]
      simp [bucket, h1]
    · have h1 : ((cs.filter fun p => is_outlier p.value (lk k) m).map
            fun p => (p, mkReason p.value m (lk k))).filter
          (fun pr => decide (pr.1.metal = M)) = [] := by
        rw [List.filter_eq_nil_iff]
        intro pr hpr
        obtain ⟨q, hq, rfl⟩ := List.mem_map.mp hpr
        simp [hcs q (List.mem_of_mem_filter hq), hkM]
      simp [bucket, hkM, h1]

theorem filter_map_fst {α β : Type} (xs : List (α × β)) (pred : α → Bool) :
    (xs.map Prod.fst).filter pred = (xs.filter fun pr => pred pr.1).map Prod.fst := by
  induction xs with
  | nil => rfl
  | cons x rest ih =>
    cases hx : pred x.1 <;> simp [List.filter_cons, hx, ih]

theorem normalize_accepted_filter (l : List PricePoint) (lk : String → List Frac)
    (m : Frac) (M : String) :
    (normalize l lk m).accepted.filter (fun p => decide (p.metal = M)) =
      (l.filter fun p => decide (p.metal = M)).filter
        fun p => ! is_outlier p.value (lk M) m := by
  unfold normalize
  rw [processGroups_accepted_filter _ _ _ _ (membersWF_groupByMetal l)
    (keysNodup_groupByMetal l), bucket_groupByMetal]

theorem normalize_rejected_filter (l : List PricePoint) (lk : String → List Frac)
    (m : Frac) (M : String) :
    (normalize l lk m).rejected.filter (fun pr => decide (pr.1.metal = M)) =
      ((l.filter fun p => decide (p.metal = M)).filter
          fun p => is_outlier p.value (lk M) m).map
        fun p => (p, mkReason p.value m (lk M)) := by
  unfold normalize
  rw [processGroups_rejected_filter _ _ _ _ (membersWF_groupByMetal l)
    (keysNodup_groupByMetal l), bucket_groupByMetal]

theorem normalize_rejectedFst_filter (l : List PricePoint) (lk : String → List Frac)
    (m : Frac) (M : String) :
    ((normalize l lk m).rejected.map Prod.fst).filter (fun p => decide (p.metal = M)) =
      (l.filter fun p => decide (p.metal = M)).filter
        fun p => is_outlier p.value (lk M) m := by
  rw [filter_map_fst]
  have h := normalize_rejected_filter l lk m M
  simp only [h, List.map_map]
  have hid : (Prod.fst ∘ fun p : PricePoint => (p, mkReason p.value m (lk M))) = id := rfl
  rw [hid, List.map_id]

theorem mem_accepted_iff (l : List PricePoint) (lk : String → List Frac) (m : Frac)
    (p : PricePoint) :
    p ∈ (normalize l lk m).accepted ↔
      p ∈ l ∧ is_outlier p.value (lk p.metal) m = false := by
  constructor
  · intro hp
    have hp2 : p ∈ (normalize l lk m).accepted.filter fun q => decide (q.metal = p.metal) :=
      List.mem_filter.mpr ⟨hp, by simp⟩
    rw [normalize_accepted_filter] at hp2
    have h1 := List.mem_filter.mp hp2
    have h2 := List.mem_filter.mp h1.1
    refine ⟨h2.1, ?_⟩
    have := h1.2
    simpa using this
  · intro hpl
    have hp2 : p ∈ (l.filter fun q => decide (q.metal = p.metal)).filter
        fun q => ! is_outlier q.value (lk p.metal) m :=
      List.mem_filter.mpr ⟨List.mem_filter.mpr ⟨hpl.1, by simp⟩, by simp [hpl.2]⟩
    rw [← normalize_accepted_filter] at hp2
    exact (List.mem_filter.mp hp2).1

theorem mem_rejectedFst_iff (l : List PricePoint) (lk : String → List Frac) (m : Frac)
    (p : PricePoint) :
    p ∈ (normalize l lk m).rejected.map Prod.fst ↔
      p ∈ l ∧ is_outlier p.value (lk p.metal) m = true := by
  constructor
  · intro hp
    have hp2 : p ∈ ((normalize l lk m).rejected.map Prod.fst).filter
        fun q => decide (q.metal = p.metal) :=
      List.mem_filter.mpr ⟨hp, by simp⟩
    rw [normalize_rejectedFst_filter] at hp2
    have h1 := List.mem_filter.mp hp2
    have h2 := List.mem_filter.mp h1.1
    exact ⟨h2.1, h1.2⟩
  · intro hpl
    have hp2 : p ∈ (l.filter fun q => decide (q.metal = p.metal)).filter
        fun q => is_outlier q.value (lk p.metal) m :=
      List.mem_filter.mpr ⟨List.mem_filter.mpr ⟨hpl.1, by simp⟩, hpl.2⟩
    rw [← normalize_rejectedFst_filter] at hp2
    exact (List.mem_filter.mp hp2).1

theorem mem_rejected_elim (l : List PricePoint) (lk : String → List Frac) (m : Frac)
    (pr : PricePoint × String) (hpr : pr ∈ (normalize l lk m).rejected) :
    pr.1 ∈ l ∧ is_outlier pr.1.value (lk pr.1.metal) m = true ∧
      pr.2 = mkReason pr.1.value m (lk pr.1.metal) := by
  have hp2 : pr ∈ (normalize l lk m).rejected.filter fun x => decide (x.1.metal = pr.1.metal) :=
    List.mem_filter.mpr ⟨hpr, by simp⟩
  rw [normalize_rejected_filter] at hp2
  obtain ⟨q, hq, heq⟩ := List.mem_map.mp hp2
  have hqf := List.mem_filter.mp hq
  have hql := List.mem_filter.mp hqf.1
  have h1 : q = pr.1 := by
    have := congrArg Prod.fst heq
    simpa using this
  have h2 : pr.2 = mkReason q.value m (lk pr.1.metal) := by
    have := congrArg Prod.snd heq
    simpa using this.symm
  subst h1
  exact ⟨hql.1, hqf.2, h2⟩

theorem totalLen_addToGroups : ∀ (gs : List (String × List PricePoint)) (p : PricePoint),
    totalLen (addToGroups gs p) = totalLen gs + 1 := by
  intro gs p
  induction gs with
  | nil => rfl
  | cons g0 rest ih =>
    obtain ⟨k', ps⟩ := g0
    by_cases h1 : k' = p.metal
    · simp [addToGroups, h1, totalLen]
      omega
    · simp only [addToGroups, if_neg h1]
      unfold totalLen at ih ⊢
      simp only [List.map_cons, List.sum_cons, ih]
      omega

theorem totalLen_groupByMetal (l : List PricePoint) : totalLen (groupByMetal l) = l.length := by
  unfold groupByMetal
  have h : ∀ (rest : List PricePoint) (gs : List (String × List PricePoint)),
      totalLen (rest.foldl addToGroups gs) = totalLen gs + rest.length := by
    intro rest
    induction rest with
    | nil => intro gs; simp
    | cons p ps ih =>
      intro gs
      rw [List.foldl_cons, ih, totalLen_addToGroups]
      simp
      omega
  rw [h l []]
  simp [totalLen]

theorem processGroups_length (lk : String → List Frac) (m : Frac) :
    ∀ gs : List (String × List PricePoint),
    (processGroups lk m gs).accepted.length + (processGroups lk m gs).rejected.length =
      totalLen gs := by
  intro gs
  induction gs with
  | nil => rfl
  | cons g0 rest ih =>
    obtain ⟨k, cs⟩ := g0
    have hc := processCandidates_length (lk k) m cs
    simp only [processGroups, List.length_append, totalLen, List.map_cons, List.sum_cons]
    unfold totalLen at ih
    omega

theorem normalize_length (l : List PricePoint) (lk : String → List Frac) (m : Frac) :
    (normalize l lk m).accepted.length + (normalize l lk m).rejected.length = l.length := by
  unfold normalize
  rw [processGroups_length, totalLen_groupByMetal]

theorem is_outlier_true_elim (v : Decimal) (h : List Frac) (m : Frac)
    (hout : is_outlier v h m = true) :
    h ≠ [] ∧ ∃ med, compute_rolling_median h = some med ∧ med.num ≠ 0 := by
  by_cases hnil : h = []
  · subst hnil
    have hfalse : is_outlier v [] m = false := rfl
    rw [hfalse] at hout
    exact absurd hout (by simp)
  · have hc : compute_rolling_median h = some (pyMedian h) := by
      unfold compute_rolling_median
      rw [if_neg hnil]
    unfold is_outlier at hout
    rw [hc] at hout
    have hout2 : (if (pyMedian h).num = 0 then false
        else decide (fracLt (m.mul (pyMedian h)) v.toFrac)) = true := hout
    by_cases hz : (pyMedian h).num = 0
    · rw [if_pos hz] at hout2
      exact absurd hout2 (by simp)
    · exact ⟨hnil, pyMedian h, hc, hz⟩

/-- C2: `normalize` partitions the batch: accepted and rejected counts sum to
the input length, and every input observation lands in exactly one of the two
lists (never both). -/
theorem C2_partition (l : List PricePoint) (lk : String → List Frac) (m : Frac) :
    (normalize l lk m).accepted.length + (normalize l lk m).rejected.length = l.length ∧
      ∀ p ∈ l,
        (p ∈ (normalize l lk m).accepted ∧ p ∉ (normalize l lk m).rejected.map Prod.fst) ∨
          (p ∉ (normalize l lk m).accepted ∧ p ∈ (normalize l lk m).rejected.map Prod.fst) := by
  refine ⟨normalize_length l lk m, ?_⟩
  intro p hp
  cases hout : is_outlier p.value (lk p.metal) m
  · left
    refine ⟨(mem_accepted_iff l lk m p).mpr ⟨hp, hout⟩, fun hc => ?_⟩
    have h2 := ((mem_rejectedFst_iff l lk m p).mp hc).2
    rw [hout] at h2
    simp at h2
  · right
    refine ⟨fun hc => ?_, (mem_rejectedFst_iff l lk m p).mpr ⟨hp, hout⟩⟩
    have h2 := ((mem_accepted_iff l lk m p).mp hc).2
    rw [hout] at h2
    simp at h2

/-- C2 witness: the partition property evaluated on a singleton batch. -/
theorem C2_partition_witness :
    ((⟨"dealer_manual", "CU_BARE", "", 0, ⟨4, 0⟩, "USD", none⟩ : PricePoint) ∈
        ([⟨"dealer_manual", "CU_BARE", "", 0, ⟨4, 0⟩, "USD", none⟩] : List PricePoint)) ∧
      (((⟨"dealer_manual", "CU_BARE", "", 0, ⟨4, 0⟩, "USD", none⟩ : PricePoint) ∈
            (normalize [⟨"dealer_manual", "CU_BARE", "", 0, ⟨4, 0⟩, "USD", none⟩]
              (fun _ => []) ⟨3, 1⟩).accepted ∧
          (⟨"dealer_manual", "CU_BARE", "", 0, ⟨4, 0⟩, "USD", none⟩ : PricePoint) ∉
            (normalize [⟨"dealer_manual", "CU_BARE", "", 0, ⟨4, 0⟩, "USD", none⟩]
              (fun _ => []) ⟨3, 1⟩).rejected.map Prod.fst) ∨
        ((⟨"dealer_manual", "CU_BARE", "", 0, ⟨4, 0⟩, "USD", none⟩ : PricePoint) ∉
            (normalize [⟨"dealer_manual", "CU_BARE", "", 0, ⟨4, 0⟩, "USD", none⟩]
              (fun _ => []) ⟨3, 1⟩).accepted ∧
          (⟨"dealer_manual", "CU_BARE", "", 0, ⟨4, 0⟩, "USD", none⟩ : PricePoint) ∈
            (normalize [⟨"dealer_manual", "CU_BARE", "", 0, ⟨4, 0⟩, "USD", none⟩]
              (fun _ => []) ⟨3, 1⟩).rejected.map Prod.fst)) :=
  ⟨by decide,
    (C2_partition [⟨"dealer_manual", "CU_BARE", "", 0, ⟨4, 0⟩, "USD", none⟩]
        (fun _ => []) ⟨3, 1⟩).2
      ⟨"dealer_manual", "CU_BARE", "", 0, ⟨4, 0⟩, "USD", none⟩ (by decide)⟩

/-- C3 counterexample: `normalize` itself never checks the sign of a value;
an observation with value `-1` and no history is accepted, so the accepted
list can contain a non-positive value. -/
theorem C3_counterexample :
    (⟨"dealer_manual", "CU_BARE", "", 0, ⟨-1, 0⟩, "USD", none⟩ : PricePoint) ∈
        (normalize [⟨"dealer_manual", "CU_BARE", "", 0, ⟨-1, 0⟩, "USD", none⟩]
          (fun _ => []) ⟨3, 1⟩).accepted ∧
      ¬0 < (⟨"dealer_manual", "CU_BARE", "", 0, ⟨-1, 0⟩, "USD", none⟩ : PricePoint).value.toRat := by
  constructor
  · decide
  · norm_num [Decimal.toRat]

/-- C3 amended: if every observation in the batch has a positive value (the
upstream data-quality invariant the spec assigns to the caller), then every
accepted observation has a positive value, since `accepted` only contains
input observations. -/
theorem C3_amended_accepted_positive (l : List PricePoint) (lk : String → List Frac)
    (m : Frac) (h : ∀ p ∈ l, 0 < p.value.toRat) :
    ∀ p ∈ (normalize l lk m).accepted, 0 < p.value.toRat :=
  fun p hp => h p ((mem_accepted_iff l lk m p).mp hp).1

/-- C3 amended witness: the amended claim evaluated on a singleton batch with
a positive value. -/
theorem C3_amended_accepted_positive_witness :
    (∀ p ∈ ([⟨"dealer_manual", "CU_BARE", "", 0, ⟨5, 0⟩, "USD", none⟩] : List PricePoint),
        0 < p.value.toRat) ∧
      ∀ p ∈ (normalize [⟨"dealer_manual", "CU_BARE", "", 0, ⟨5, 0⟩, "USD", none⟩]
          (fun _ => []) ⟨3, 1⟩).accepted, 0 < p.value.toRat := by
  have h : ∀ p ∈ ([⟨"dealer_manual", "CU_BARE", "", 0, ⟨5, 0⟩, "USD", none⟩] :
      List PricePoint), 0 < p.value.toRat := by
    intro p hp
    simp only [List.mem_singleton] at hp
    subst hp
    norm_num [Decimal.toRat]
  exact ⟨h, C3_amended_accepted_positive _ _ _ h⟩

/-- C4 counterexample: the code interpolates the raw `str(Decimal)` of the
value into the reason; for the value `15` the rendered value field is `15`,
showing zero decimal digits, not at least four. -/
theorem C4_counterexample :
    (normalize [⟨"dealer_manual", "CU_BARE", "", 0, ⟨15, 0⟩, "USD", none⟩]
        (fun M => if M = "CU_BARE" then [⟨1, 1⟩, ⟨1, 1⟩, ⟨1, 1⟩] else []) ⟨3, 1⟩).rejected =
      [(⟨"dealer_manual", "CU_BARE", "", 0, ⟨15, 0⟩, "USD", none⟩,
        "outlier: value=15 > 3.0×median=1.0000")] ∧
      fracDigits (valueField "outlier: value=15 > 3.0×median=1.0000") < 4 :=
  ⟨by decide, by decide⟩

/-- C4 amended: every rejection reason is exactly the template
`outlier: value=V > M×median=D` where `V` is the exact `str(Decimal)` of the
observed value (not necessarily showing 4 decimal digits), `M` is the
multiplier and `D` is the history median formatted to 4 decimal digits; in
particular the reason contains the observed value and the threshold data. -/
theorem C4_amended_reason (l : List PricePoint) (lk : String → List Frac) (m : Frac) :
    ∀ pr ∈ (normalize l lk m).rejected,
      pr.2 = "outlier: value=" ++ pr.1.value.str ++ " > " ++ floatStr m ++ "×median=" ++
        ratFixed 4 (pyMedian (lk pr.1.metal)) :=
  fun pr hpr => (mem_rejected_elim l lk m pr hpr).2.2

set_option maxHeartbeats 1000000 in
/-- C4 amended witness: the reason template evaluated on a concrete
rejection. -/
theorem C4_amended_reason_witness :
    ((⟨"dealer_manual", "CU_BARE", "", 0, ⟨15, 0⟩, "USD", none⟩,
        "outlier: value=15 > 3.0×median=1.0000") : PricePoint × String) ∈
      (normalize [⟨"dealer_manual", "CU_BARE", "", 0, ⟨15, 0⟩, "USD", none⟩]
        (fun M => if M = "CU_BARE" then [⟨1, 1⟩, ⟨1, 1⟩, ⟨1, 1⟩] else []) ⟨3, 1⟩).rejected ∧
      ((⟨"dealer_manual", "CU_BARE", "", 0, ⟨15, 0⟩, "USD", none⟩,
          "outlier: value=15 > 3.0×median=1.0000") : PricePoint × String).2 =
        "outlier: value=" ++
          ((⟨"dealer_manual", "CU_BARE", "", 0, ⟨15, 0⟩, "USD", none⟩,
            "outlier: value=15 > 3.0×median=1.0000") : PricePoint × String).1.value.str ++
          " > " ++ floatStr ⟨3, 1⟩ ++ "×median=" ++
          ratFixed 4 (pyMedian ((fun M => if M = "CU_BARE" then [⟨1, 1⟩, ⟨1, 1⟩, ⟨1, 1⟩]
            else [])
            ((⟨"dealer_manual", "CU_BARE", "", 0, ⟨15, 0⟩, "USD", none⟩,
              "outlier: value=15 > 3.0×median=1.0000") : PricePoint × String).1.metal)) := by
  have hmem : ((⟨"dealer_manual", "CU_BARE", "", 0, ⟨15, 0⟩, "USD", none⟩,
      "outlier: value=15 > 3.0×median=1.0000") : PricePoint × String) ∈
      (normalize [⟨"dealer_manual", "CU_BARE", "", 0, ⟨15, 0⟩, "USD", none⟩]
        (fun M => if M = "CU_BARE" then [⟨1, 1⟩, ⟨1, 1⟩, ⟨1, 1⟩] else []) ⟨3, 1⟩).rejected :=
    by decide
  exact ⟨hmem,
    C4_amended_reason [⟨"dealer_manual", "CU_BARE", "", 0, ⟨15, 0⟩, "USD", none⟩]
      (fun M => if M = "CU_BARE" then [⟨1, 1⟩, ⟨1, 1⟩, ⟨1, 1⟩] else []) ⟨3, 1⟩
      (⟨"dealer_manual", "CU_BARE", "", 0, ⟨15, 0⟩, "USD", none⟩,
        "outlier: value=15 > 3.0×median=1.0000") hmem⟩

/-- C7: the accept/reject classification of metal-`A` observations (and their
reasons) depends only on the history the lookup gives for `A`: two lookups
agreeing on `A` yield identical metal-`A` accepted and rejected sublists,
whatever they say about other metals. -/
theorem C7_per_metal_independence (l : List PricePoint) (lk1 lk2 : String → List Frac)
    (m : Frac) (A : String) (h : lk1 A = lk2 A) :
    (normalize l lk1 m).accepted.filter (fun p => decide (p.metal = A)) =
      (normalize l lk2 m).accepted.filter (fun p => decide (p.metal = A)) ∧
    (normalize l lk1 m).rejected.filter (fun pr => decide (pr.1.metal = A)) =
      (normalize l lk2 m).rejected.filter (fun pr => decide (pr.1.metal = A)) := by
  constructor
  · rw [normalize_accepted_filter, normalize_accepted_filter, h]
  · rw [normalize_rejected_filter, normalize_rejected_filter, h]

/-- C7 witness: two lookups that agree on `CU_BARE` but differ on every other
metal classify the `CU_BARE` observations identically. -/
theorem C7_per_metal_independence_witness :
    ((fun M => if M = "CU_BARE" then [(⟨1, 1⟩ : Frac)] else []) "CU_BARE" =
        (fun M => if M = "CU_BARE" then [(⟨1, 1⟩ : Frac)] else [⟨7, 1⟩]) "CU_BARE") ∧
      ((normalize [⟨"dealer_manual", "CU_BARE", "", 0, ⟨9, 0⟩, "USD", none⟩,
            ⟨"iscrap", "HMS1", "", 0, ⟨2, 0⟩, "USD", none⟩]
          (fun M => if M = "CU_BARE" then [⟨1, 1⟩] else []) ⟨3, 1⟩).accepted.filter
          (fun p => decide (p.metal = "CU_BARE")) =
        (normalize [⟨"dealer_manual", "CU_BARE", "", 0, ⟨9, 0⟩, "USD", none⟩,
            ⟨"iscrap", "HMS1", "", 0, ⟨2, 0⟩, "USD", none⟩]
          (fun M => if M = "CU_BARE" then [⟨1, 1⟩] else [⟨7, 1⟩]) ⟨3, 1⟩).accepted.filter
          (fun p => decide (p.metal = "CU_BARE")) ∧
      (normalize [⟨"dealer_manual", "CU_BARE", "", 0, ⟨9, 0⟩, "USD", none⟩,
            ⟨"iscrap", "HMS1", "", 0, ⟨2, 0⟩, "USD", none⟩]
          (fun M => if M = "CU_BARE" then [⟨1, 1⟩] else []) ⟨3, 1⟩).rejected.filter
          (fun pr => decide (pr.1.metal = "CU_BARE")) =
        (normalize [⟨"dealer_manual", "CU_BARE", "", 0, ⟨9, 0⟩, "USD", none⟩,
            ⟨"iscrap", "HMS1", "", 0, ⟨2, 0⟩, "USD", none⟩]
          (fun M => if M = "CU_BARE" then [⟨1, 1⟩] else [⟨7, 1⟩]) ⟨3, 1⟩).rejected.filter
          (fun pr => decide (pr.1.metal = "CU_BARE"))) :=
  ⟨by decide,
    C7_per_metal_independence
      [⟨"dealer_manual", "CU_BARE", "", 0, ⟨9, 0⟩, "USD", none⟩,
        ⟨"iscrap", "HMS1", "", 0, ⟨2, 0⟩, "USD", none⟩]
      (fun M => if M = "CU_BARE" then [⟨1, 1⟩] else [])
      (fun M => if M = "CU_BARE" then [⟨1, 1⟩] else [⟨7, 1⟩]) ⟨3, 1⟩ "CU_BARE" (by decide)⟩

/-- C8: `normalize` is a total function: it returns a fully populated outcome
covering the whole batch (no exception paths exist in the embedding), and an
observation is only ever rejected when its metal's history is non-empty with
a nonzero median — exactly the guard that keeps the Python reason formatting
(`:.4f` applied to the median) from ever receiving `None`. -/
theorem C8_total_no_failure (l : List PricePoint) (lk : String → List Frac) (m : Frac) :
    (normalize l lk m).accepted.length + (normalize l lk m).rejected.length = l.length ∧
      ∀ pr ∈ (normalize l lk m).rejected,
        lk pr.1.metal ≠ [] ∧
          ∃ med, compute_rolling_median (lk pr.1.metal) = some med ∧ med.num ≠ 0 := by
  refine ⟨normalize_length l lk m, ?_⟩
  intro pr hpr
  exact is_outlier_true_elim _ _ _ (mem_rejected_elim l lk m pr hpr).2.1

/-- C8 witness: a concrete rejection, exhibiting the non-empty history and
nonzero median behind it. -/
theorem C8_total_no_failure_witness :
    ((⟨"iscrap", "HMS1", "", 0, ⟨5, 0⟩, "USD", none⟩,
        "outlier: value=5 > 3.0×median=0.1000") : PricePoint × String) ∈
      (normalize [⟨"iscrap", "HMS1", "", 0, ⟨5, 0⟩, "USD", none⟩]
        (fun M => if M = "HMS1" then [⟨1, 10⟩] else []) ⟨3, 1⟩).rejected ∧
      ((fun M => if M = "HMS1" then [(⟨1, 10⟩ : Frac)] else [])
          ((⟨"iscrap", "HMS1", "", 0, ⟨5, 0⟩, "USD", none⟩,
            "outlier: value=5 > 3.0×median=0.1000") : PricePoint × String).1.metal ≠ [] ∧
        ∃ med, compute_rolling_median
            ((fun M => if M = "HMS1" then [(⟨1, 10⟩ : Frac)] else [])
              ((⟨"iscrap", "HMS1", "", 0, ⟨5, 0⟩, "USD", none⟩,
                "outlier: value=5 > 3.0×median=0.1000") : PricePoint × String).1.metal) =
            some med ∧ med.num ≠ 0) := by
  have hmem : ((⟨"iscrap", "HMS1", "", 0, ⟨5, 0⟩, "USD", none⟩,
      "outlier: value=5 > 3.0×median=0.1000") : PricePoint × String) ∈
      (normalize [⟨"iscrap", "HMS1", "", 0, ⟨5, 0⟩, "USD", none⟩]
        (fun M => if M = "HMS1" then [⟨1, 10⟩] else []) ⟨3, 1⟩).rejected := by decide
  exact ⟨hmem,
    (C8_total_no_failure [⟨"iscrap", "HMS1", "", 0, ⟨5, 0⟩, "USD", none⟩]
        (fun M => if M = "HMS1" then [⟨1, 10⟩] else []) ⟨3, 1⟩).2 _ hmem⟩

/-- C9: per metal, the accepted observations appear in the same relative
order as in the input batch (they form a subsequence of the input's metal-`M`
observations), and likewise the rejected ones. -/
theorem C9_stable_order (l : List PricePoint) (lk : String → List Frac) (m : Frac)
    (M : String) :
    ((normalize l lk m).accepted.filter fun p => decide (p.metal = M)).Sublist
        (l.filter fun p => decide (p.metal = M)) ∧
      (((normalize l lk m).rejected.map Prod.fst).filter
          fun p => decide (p.metal = M)).Sublist
        (l.filter fun p => decide (p.metal = M)) := by
  constructor
  · rw [normalize_accepted_filter]
    exact List.filter_sublist _
  · rw [normalize_rejectedFst_filter]
    exact List.filter_sublist _

end MetalLedger
